import Mathlib

/-!
Verification of the World_Builder CLI (`world_builder/cli.py`).

The program stores one record per node as a small text file, builds an
in-memory index (name to record, parent reference to child names), and
renders the hierarchy as a tree.  Strings are modelled as `List Char`;
file contents and the data directory are explicit values; the recursive
tree printer is given explicit fuel so that non-termination is observable
as fuel exhaustion at every budget.
-/

namespace WorldBuilder

/-- Strings are modelled as lists of characters. -/
abbrev Str := List Char

/-- Characters that Python `str.splitlines` treats as line boundaries. -/
def isPyLineBreak (c : Char) : Bool :=
  c.toNat = 10 || c.toNat = 13 || c.toNat = 11 || c.toNat = 12 ||
  c.toNat = 28 || c.toNat = 29 || c.toNat = 30 || c.toNat = 133 ||
  c.toNat = 0x2028 || c.toNat = 0x2029

/-- Characters removed by Python `str.strip()` (Unicode whitespace). -/
def isPySpace (c : Char) : Bool :=
  c.toNat = 32 || (9 ≤ c.toNat && c.toNat ≤ 13) || (28 ≤ c.toNat && c.toNat ≤ 31) ||
  c.toNat = 133 || c.toNat = 160 || c.toNat = 0x1680 ||
  (0x2000 ≤ c.toNat && c.toNat ≤ 0x200a) || c.toNat = 0x2028 || c.toNat = 0x2029 ||
  c.toNat = 0x202f || c.toNat = 0x205f || c.toNat = 0x3000

/-- Lowercasing of one character, as `str.lower` acts on the ASCII range. -/
def lowerChar (c : Char) : Char :=
  if 65 ≤ c.toNat ∧ c.toNat ≤ 90 then Char.ofNat (c.toNat + 32) else c

/-- Membership in the character class `[a-z0-9]` used by `slugify`. -/
def isSlugChar (c : Char) : Bool :=
  (97 ≤ c.toNat && c.toNat ≤ 122) || (48 ≤ c.toNat && c.toNat ≤ 57)

/-- The underscore test used when stripping `_` from the ends of a slug. -/
def isUnd (c : Char) : Bool := decide (c = '_')

/-- Remove the longest trailing run of characters satisfying `p`. -/
def rstripBy (p : Char → Bool) : Str → Str
  | [] => []
  | c :: rest =>
    match rstripBy p rest with
    | [] => if p c then [] else [c]
    | r => c :: r

/-- Python `s.strip(chars)`: drop matching characters at both ends. -/
def stripBy (p : Char → Bool) (s : Str) : Str := rstripBy p (s.dropWhile p)

/-- Python `str.strip()` with no argument: strip whitespace at both ends. -/
def pyStrip (s : Str) : Str := stripBy isPySpace s

/-- Python `str.splitlines`: split at line-break characters, treating a
`"\r\n"` pair as one boundary; a trailing break yields no extra element. -/
def splitlines : Str → List Str
  | [] => []
  | '\r' :: '\n' :: rest => [] :: splitlines rest
  | c :: rest =>
    if isPyLineBreak c then
      [] :: splitlines rest
    else
      match splitlines rest with
      | [] => [[c]]
      | l :: ls => (c :: l) :: ls

/-- Python `"\n".join(lines)`. -/
def joinNL : List Str → Str
  | [] => []
  | [l] => l
  | l :: ls => l ++ '\n' :: joinNL ls

/-- One pass of `re.sub("[^a-z0-9]+", "_", s)`: each maximal run of
characters outside `[a-z0-9]` becomes a single underscore.  The Boolean
state records whether the scanner currently stands inside such a run. -/
def subRuns : Bool → Str → Str
  | _, [] => []
  | inRun, c :: rest =>
    if isSlugChar c then c :: subRuns false rest
    else if inRun then subRuns true rest
    else '_' :: subRuns true rest

/-- One pass of `re.sub("_+", "_", s)`: each maximal run of underscores
becomes a single underscore. -/
def collapseRuns : Bool → Str → Str
  | _, [] => []
  | inRun, c :: rest =>
    if c = '_' then
      if inRun then collapseRuns true rest else '_' :: collapseRuns true rest
    else c :: collapseRuns false rest

/-- `slugify` from `cli.py`: lowercase and whitespace-strip the name,
replace runs of non-alphanumerics with `_`, collapse repeated `_`, then
strip `_` from both ends. -/
def slugify (name : Str) : Str :=
  stripBy isUnd (collapseRuns false (subRuns false (pyStrip (name.map lowerChar))))

/-- Key derivation as the specification words it: lowercase, replace each
maximal non-alphanumeric run by one underscore, collapse repeated
underscores, strip leading and trailing underscores — with no separate
whitespace-stripping step. -/
def slugifySpec (name : Str) : Str :=
  stripBy isUnd (collapseRuns false (subRuns false (name.map lowerChar)))

/-- A stored record: type, parent reference and free-form notes. -/
structure Node where
  type : Str
  parent : Str
  notes : Str
deriving DecidableEq

/-- `read_node` from `cli.py`: line 1 is the type (stripped, default
`"Node"`), line 2 the parent (stripped, default `"-"`), remaining lines
joined by newline are the notes (default empty). -/
def read_node (text : Str) : Node :=
  let lines := splitlines text
  { type := match lines.get? 0 with
      | some l0 => pyStrip l0
      | none => ("Node".data)
    parent := match lines.get? 1 with
      | some l1 => pyStrip l1
      | none => ['-']
    notes := if lines.length > 2 then joinNL (lines.drop 2) else [] }

/-- The file content written by `cmd_add`: the parent argument defaults to
`"-"` when empty or absent, the three fields are joined by newlines, the
notes line is appended only when non-empty, and a final newline is added. -/
def addContent (type parentArg notes : Str) : Str :=
  let parent := if parentArg = [] then ['-'] else parentArg
  joinNL ([type, parent] ++ (if notes = [] then [] else [notes])) ++ ['\n']

/-- `node_path` from `cli.py`: `data_dir / f"{slugify(name)}.txt"`. -/
def node_path (dataDir name : Str) : Str :=
  dataDir ++ '/' :: slugify name ++ (".txt".data)

/-- First-match association-list lookup, modelling a Python dict read. -/
def lookupA : List (Str × α) → Str → Option α
  | [], _ => none
  | (k2, v) :: rest, k => if k2 = k then some v else lookupA rest k

/-- Overwrite-or-append update of the data directory, modelling a file
write: replace the content stored under a stem or create the entry. -/
def updateA : List (Str × Str) → Str → Str → List (Str × Str)
  | [], k, v => [(k, v)]
  | (k2, v2) :: rest, k, v =>
    if k2 = k then (k, v) :: rest else (k2, v2) :: updateA rest k v

/-- `cmd_add` from `cli.py`, over a directory modelled as a list of
(stem, content) pairs: refuse (exit 1) when the slug already has a file
and force is not set; otherwise write the record.  The result carries the
new directory, the exit status, and the printed lines. -/
def cmd_add (dir : List (Str × Str)) (dataDir name type parentArg notes : Str)
    (force : Bool) : List (Str × Str) × Nat × List Str :=
  let key := slugify name
  if (lookupA dir key).isSome ∧ ¬force then
    (dir, 1, [("Refusing to overwrite existing node: ".data) ++ node_path dataDir name])
  else
    (updateA dir key (addContent type parentArg notes), 0,
      [("Created node: ".data) ++ node_path dataDir name])

/-- `cmd_show` from `cli.py`: exit 1 with a one-line message when the
record file is absent, otherwise print the four fields (notes shown as
`"(none)"` when empty). -/
def cmd_show (dir : List (Str × Str)) (dataDir name : Str) : Nat × List Str :=
  match lookupA dir (slugify name) with
  | none => (1, [("Node not found: ".data) ++ node_path dataDir name])
  | some content =>
    let n := read_node content
    (0, [("Name:   ".data) ++ name,
         ("Type:   ".data) ++ n.type,
         ("Parent: ".data) ++ n.parent,
         ("Notes:".data),
         if n.notes = [] then ("(none)".data) else n.notes])

/-- Lexicographic comparison of strings by code point, as Python compares
strings. -/
def lexLe : Str → Str → Bool
  | [], _ => true
  | _ :: _, [] => false
  | a :: as, b :: bs =>
    if a.toNat < b.toNat then true
    else if b.toNat < a.toNat then false
    else lexLe as bs

/-- The ordering of `list.sort(key=str.lower)`: compare lowercased keys. -/
def ciLe (a b : Str) : Prop := lexLe (a.map lowerChar) (b.map lowerChar) = true

instance : DecidableRel ciLe := fun _ _ => instDecidableEqBool _ _

/-- The ordering of `sorted(data_dir.glob("*.txt"))`, restricted to the
stem since every path shares the directory and the `.txt` suffix. -/
def stemLe (a b : Str × Str) : Prop := lexLe a.1 b.1 = true

instance : DecidableRel stemLe := fun _ _ => instDecidableEqBool _ _

/-- `iter_nodes` from `cli.py`: the records of the data directory in
sorted filename order. -/
def iter_nodes (dir : List (Str × Str)) : List (Str × Str) :=
  List.insertionSort stemLe dir

/-- The grouping expression of `build_index`:
`parent if n.parent and n.parent != "-" else None`. -/
def parentGroup (n : Node) : Option Str :=
  if n.parent ≠ [] ∧ n.parent ≠ ['-'] then some n.parent else none

/-- Append one child key to the list held under one group of the
`children` mapping. -/
def insertChild (ch : Option Str → List Str) (g : Option Str) (k : Str) :
    Option Str → List Str :=
  fun g2 => if g2 = g then ch g ++ [k] else ch g2

/-- `build_index` from `cli.py`: read every record in sorted order,
register it under its stem, append its stem to the child group of its
parent reference, then sort every child list case-insensitively. -/
def build_index (dir : List (Str × Str)) :
    List (Str × Node) × (Option Str → List Str) :=
  let nodes := (iter_nodes dir).map (fun e => (e.1, read_node e.2))
  let raw := nodes.foldl (fun ch kn => insertChild ch (parentGroup kn.2) kn.1)
    (fun _ => [])
  (nodes, fun g => List.insertionSort ciLe (raw g))

/-- The de-duplication loop of `cmd_tree.display`: a `seen` set plus an
`ordered` accumulator keeping the first occurrence of each key. -/
def orderedGo (seen : List Str) : List Str → List Str
  | [] => []
  | k :: rest =>
    if k ∈ seen then orderedGo seen rest else k :: orderedGo (k :: seen) rest

/-- De-duplicate a key list, keeping first occurrences, as the `seen`
loop of `cmd_tree.display` does starting from an empty set. -/
def orderedOf (kids : List Str) : List Str := orderedGo [] kids

/-- The dual child lookup of `cmd_tree.display`: children keyed by
`/name` followed by children keyed by bare `name`, de-duplicated. -/
def displayKidsOf (children : Option Str → List Str) (name : Str) : List Str :=
  orderedOf (children (some ('/' :: name)) ++ children (some name))

/-- The label printed for one node: `name [type]`, or the bare name for a
dangling reference. -/
def labelOf (nodes : List (Str × Node)) (name : Str) : Str :=
  match lookupA nodes name with
  | some nd => name ++ (" [".data) ++ nd.type ++ ("]".data)
  | none => name

/-- Collect the rendered blocks of all children; any failed child aborts
the whole rendering. -/
def seqOpt : List (Option (List Str)) → Option (List Str)
  | [] => some []
  | none :: _ => none
  | some l :: rest => (seqOpt rest).map (fun r => l ++ r)

/-- Fuel-indexed embedding of the recursive `display` in `cmd_tree`:
print the label under the caller-built indent, then recurse into each
child with the indent extended by the branch glyph chosen by the
last-child test, exactly as the source passes `prefix + branch`.  `none`
means the recursion exceeded the fuel budget. -/
def displayF (nodes : List (Str × Node)) (children : Option Str → List Str) :
    Nat → Str → Str → Option (List Str)
  | 0, _, _ => none
  | fuel + 1, name, pre =>
    let ordered := displayKidsOf children name
    (seqOpt (ordered.enum.map (fun ic =>
      displayF nodes children fuel ic.2
        (pre ++ (if ic.1 = ordered.length - 1 then ("└─ ".data) else ("├─ ".data)))))).map
      (fun rest => (pre ++ labelOf nodes name) :: rest)

/-- `cmd_tree` from `cli.py` when a root argument is given: the argument
is looked up verbatim among the indexed stems; on a miss the command
prints `Root not found` and exits 1, otherwise it renders from there. -/
def cmd_tree_root (dir : List (Str × Str)) (root : Str) (fuel : Nat) :
    Option (Nat × List Str) :=
  let idx := build_index dir
  match lookupA idx.1 root with
  | none => some (1, [("Root not found: ".data) ++ root])
  | some _ => (displayF idx.1 idx.2 fuel root []).map (fun lines => (0, lines))

/-- First-occurrence de-duplication as the specification words it: keep
each element once, at the position of its first occurrence. -/
def keepFirst : List Str → List Str
  | [] => []
  | x :: xs => x :: keepFirst (xs.filter (fun y => decide (y ≠ x)))
termination_by l => l.length
decreasing_by
  simp only [List.length_cons]
  exact Nat.lt_succ_of_le (List.length_filter_le _ _)

/-- Adjacent-underscore freedom of a character list. -/
def noDbl : Str → Bool
  | c :: d :: t => (!(isUnd c && isUnd d)) && noDbl (d :: t)
  | _ => true

/-- Shape of every `slugify` output: characters drawn from `[a-z0-9_]`,
no adjacent underscores, and no underscore at either end. -/
def Slugged (l : Str) : Prop :=
  (∀ c ∈ l, isSlugChar c = true ∨ c = '_') ∧ noDbl l = true ∧
    (∀ c, l.head? = some c → c ≠ '_') ∧ (∀ c, l.getLast? = some c → c ≠ '_')

/-! ### Character class facts -/

lemma toNat_of_slug_or_und {c : Char} (h : isSlugChar c = true ∨ c = '_') :
    c.toNat = 95 ∨ (97 ≤ c.toNat ∧ c.toNat ≤ 122) ∨ (48 ≤ c.toNat ∧ c.toNat ≤ 57) := by
  rcases h with h | h
  · simp only [isSlugChar, Bool.or_eq_true, Bool.and_eq_true, decide_eq_true_eq] at h
    exact Or.inr h
  · subst h
    exact Or.inl rfl

lemma not_space_of_slug_or_und {c : Char} (h : isSlugChar c = true ∨ c = '_') :
    isPySpace c = false := by
  have hn := toNat_of_slug_or_und h
  rw [Bool.eq_false_iff]
  intro hsp
  simp only [isPySpace, Bool.or_eq_true, Bool.and_eq_true, decide_eq_true_eq] at hsp
  omega

lemma lowerChar_eq_self_of {c : Char} (h : isSlugChar c = true ∨ c = '_') :
    lowerChar c = c := by
  have hn := toNat_of_slug_or_und h
  unfold lowerChar
  rw [if_neg]
  omega

lemma not_slug_of_space {c : Char} (h : isPySpace c = true) :
    isSlugChar c = false := by
  simp only [isPySpace, Bool.or_eq_true, Bool.and_eq_true, decide_eq_true_eq] at h
  rw [Bool.eq_false_iff]
  intro hs
  simp only [isSlugChar, Bool.or_eq_true, Bool.and_eq_true, decide_eq_true_eq] at hs
  omega

lemma not_und_of_slug {c : Char} (h : isSlugChar c = true) : c ≠ '_' := by
  intro he
  subst he
  exact absurd h (by decide)

lemma isUnd_eq_false_iff {c : Char} : isUnd c = false ↔ c ≠ '_' := by
  simp [isUnd]

/-! ### Strip lemmas -/

lemma rstripBy_decomp (p : Char → Bool) (l : Str) :
    ∃ ws, l = rstripBy p l ++ ws ∧ ∀ c ∈ ws, p c = true := by
  induction l with
  | nil => exact ⟨[], rfl, by simp⟩
  | cons c rest ih =>
    rcases ih with ⟨ws, hws, hall⟩
    cases hr : rstripBy p rest with
    | nil =>
      have hrw : rest = ws := by rw [hws, hr, List.nil_append]
      by_cases hc : p c = true
      · refine ⟨c :: ws, ?_, ?_⟩
        · rw [rstripBy, hr]
          simp only [if_pos hc, List.nil_append, hrw]
        · intro d hd
          rcases List.mem_cons.mp hd with h | h
          · subst h; exact hc
          · exact hall d h
      · refine ⟨ws, ?_, hall⟩
        rw [rstripBy, hr]
        simp only [if_neg hc, List.cons_append, List.nil_append, hrw]
    | cons r0 rt =>
      refine ⟨ws, ?_, hall⟩
      conv_lhs => rw [hws, hr]
      rw [rstripBy, hr]
      rfl

lemma rstripBy_append_singleton {p : Char → Bool} {c : Char} (hc : p c = true)
    (l : Str) : rstripBy p (l ++ [c]) = rstripBy p l := by
  induction l with
  | nil => simp [rstripBy, hc]
  | cons a l ih =>
    rw [List.cons_append, rstripBy, rstripBy, ih]

lemma rstripBy_eq_self {p : Char → Bool} {l : Str}
    (h : ∀ c, l.getLast? = some c → p c = false) : rstripBy p l = l := by
  induction l with
  | nil => rfl
  | cons a l ih =>
    cases l with
    | nil =>
      have := h a rfl
      simp [rstripBy, this]
    | cons b t =>
      have hlast : ∀ c, (b :: t).getLast? = some c → p c = false := by
        intro c hc
        exact h c (by rw [List.getLast?_cons_cons]; exact hc)
      rw [rstripBy, ih hlast]

lemma rstripBy_getLast_not {p : Char → Bool} {l : Str} {c : Char}
    (h : (rstripBy p l).getLast? = some c) : p c = false := by
  induction l with
  | nil => simp [rstripBy] at h
  | cons a l ih =>
    rw [rstripBy] at h
    revert h
    cases hr : rstripBy p l with
    | nil =>
      by_cases hc : p a = true
      · simp [hc]
      · intro h
        simp only [if_neg hc, List.getLast?_singleton, Option.some.injEq] at h
        subst h
        exact Bool.eq_false_iff.mpr hc
    | cons r0 rt =>
      intro h
      rw [List.getLast?_cons_cons] at h
      exact ih (hr ▸ h)

lemma rstripBy_head? {p : Char → Bool} (l : Str) :
    rstripBy p l = [] ∨ (rstripBy p l).head? = l.head? := by
  cases l with
  | nil => exact Or.inl rfl
  | cons a l =>
    rw [rstripBy]
    cases hr : rstripBy p l with
    | nil =>
      by_cases hc : p a = true
      · simp [hc]
      · simp [hc]
    | cons r0 rt => simp

lemma mem_rstripBy {p : Char → Bool} {l : Str} {c : Char}
    (h : c ∈ rstripBy p l) : c ∈ l := by
  rcases rstripBy_decomp p l with ⟨ws, hws, _⟩
  rw [hws]
  exact List.mem_append_left ws h

lemma dropWhile_head_not {p : Char → Bool} {l : Str} {c : Char} {t : Str}
    (h : l.dropWhile p = c :: t) : p c = false := by
  induction l with
  | nil => simp [List.dropWhile] at h
  | cons a l ih =>
    rw [List.dropWhile_cons] at h
    by_cases ha : p a = true
    · rw [if_pos ha] at h
      exact ih h
    · rw [if_neg ha] at h
      injection h with h1 _
      subst h1
      exact Bool.eq_false_iff.mpr ha

lemma mem_stripBy {p : Char → Bool} {l : Str} {c : Char}
    (h : c ∈ stripBy p l) : c ∈ l := by
  unfold stripBy at h
  exact (List.dropWhile_sublist p).subset (mem_rstripBy h)

lemma stripBy_cons_skip {p : Char → Bool} {c : Char} (hc : p c = true) (l : Str) :
    stripBy p (c :: l) = stripBy p l := by
  unfold stripBy
  rw [List.dropWhile_cons, if_pos hc]

lemma dropWhile_append_eq {p : Char → Bool} (l m : Str) :
    List.dropWhile p (l ++ m) =
      if (List.dropWhile p l).isEmpty then List.dropWhile p m
      else List.dropWhile p l ++ m := by
  induction l with
  | nil => simp
  | cons a l ih =>
    by_cases ha : p a = true
    · simp only [List.cons_append, List.dropWhile_cons, if_pos ha, ih]
    · simp only [List.cons_append, List.dropWhile_cons, if_neg ha]
      simp

lemma stripBy_append_singleton {p : Char → Bool} {c : Char} (hc : p c = true)
    (l : Str) : stripBy p (l ++ [c]) = stripBy p l := by
  unfold stripBy
  rw [dropWhile_append_eq]
  cases hd : l.dropWhile p with
  | nil => simp [List.dropWhile, hc, rstripBy]
  | cons d t =>
    simp only [List.isEmpty_cons, Bool.false_eq_true, if_false]
    exact rstripBy_append_singleton hc (d :: t)

/-! ### Underscore-substitution facts -/

lemma noDbl_tail {c : Char} {t : Str} (h : noDbl (c :: t) = true) :
    noDbl t = true := by
  cases t with
  | nil => rfl
  | cons d t2 =>
    rw [noDbl, Bool.and_eq_true] at h
    exact h.2

lemma noDbl_cons {c : Char} {t : Str} (ht : noDbl t = true)
    (hh : ∀ d, t.head? = some d → c = '_' → d ≠ '_') :
    noDbl (c :: t) = true := by
  cases t with
  | nil => rfl
  | cons d t2 =>
    rw [noDbl, Bool.and_eq_true]
    refine ⟨?_, ht⟩
    by_cases hc : c = '_'
    · have hd : d ≠ '_' := hh d rfl hc
      simp [isUnd, hc, hd]
    · simp [isUnd, hc]

lemma noDbl_head_of_und {t : Str} (h : noDbl ('_' :: t) = true) :
    ∀ c, t.head? = some c → c ≠ '_' := by
  intro c hc
  cases t with
  | nil => simp at hc
  | cons d t2 =>
    simp only [List.head?_cons, Option.some.injEq] at hc
    subst hc
    rw [noDbl, Bool.and_eq_true] at h
    have h1 := h.1
    simp [isUnd] at h1
    exact h1

lemma noDbl_append_left {a b : Str} (h : noDbl (a ++ b) = true) :
    noDbl a = true := by
  induction a with
  | nil => rfl
  | cons x a2 ih =>
    cases a2 with
    | nil => rfl
    | cons y a3 =>
      simp only [List.cons_append] at h ih
      rw [noDbl, Bool.and_eq_true] at h
      rw [noDbl, Bool.and_eq_true]
      exact ⟨h.1, ih h.2⟩

lemma noDbl_dropWhile {p : Char → Bool} {l : Str} (h : noDbl l = true) :
    noDbl (l.dropWhile p) = true := by
  induction l with
  | nil => exact h
  | cons a l ih =>
    rw [List.dropWhile_cons]
    by_cases ha : p a = true
    · rw [if_pos ha]
      exact ih (noDbl_tail h)
    · rw [if_neg ha]
      exact h

lemma noDbl_rstripBy {p : Char → Bool} {l : Str} (h : noDbl l = true) :
    noDbl (rstripBy p l) = true := by
  rcases rstripBy_decomp p l with ⟨ws, hws, _⟩
  rw [hws] at h
  exact noDbl_append_left h

lemma mem_subRuns {l : Str} {c : Char} :
    ∀ {b : Bool}, c ∈ subRuns b l → isSlugChar c = true ∨ c = '_' := by
  induction l with
  | nil => intro b h; simp [subRuns] at h
  | cons a l ih =>
    intro b h
    rw [subRuns] at h
    by_cases ha : isSlugChar a = true
    · rw [if_pos ha] at h
      rcases List.mem_cons.mp h with h | h
      · subst h; exact Or.inl ha
      · exact ih h
    · rw [if_neg ha] at h
      cases b with
      | true =>
        rw [if_pos rfl] at h
        exact ih h
      | false =>
        rw [if_neg (by simp)] at h
        rcases List.mem_cons.mp h with h | h
        · subst h; exact Or.inr rfl
        · exact ih h

lemma subRuns_true_head (l : Str) :
    subRuns true l = [] ∨
      ∃ c t, subRuns true l = c :: t ∧ isSlugChar c = true := by
  induction l with
  | nil => exact Or.inl rfl
  | cons a l ih =>
    rw [subRuns]
    by_cases ha : isSlugChar a = true
    · rw [if_pos ha]
      exact Or.inr ⟨a, _, rfl, ha⟩
    · rw [if_neg ha, if_pos rfl]
      exact ih

lemma noDbl_subRuns : ∀ (b : Bool) (l : Str), noDbl (subRuns b l) = true := by
  intro b l
  induction l generalizing b with
  | nil => cases b <;> rfl
  | cons a l ih =>
    rw [subRuns]
    by_cases ha : isSlugChar a = true
    · rw [if_pos ha]
      apply noDbl_cons (ih false)
      intro d _ hc
      exact absurd hc (not_und_of_slug ha)
    · rw [if_neg ha]
      cases b with
      | true =>
        rw [if_pos rfl]
        exact ih true
      | false =>
        rw [if_neg (by simp)]
        apply noDbl_cons (ih true)
        intro d hd _
        rcases subRuns_true_head l with h | ⟨c2, t2, h, hs⟩
        · rw [h] at hd
          simp at hd
        · rw [h] at hd
          simp only [List.head?_cons, Option.some.injEq] at hd
          subst hd
          exact not_und_of_slug hs

lemma subRuns_true_nilOut {ws : Str} (hws : ∀ c ∈ ws, isSlugChar c = false) :
    subRuns true ws = [] := by
  induction ws with
  | nil => rfl
  | cons a ws ih =>
    rw [subRuns,
      if_neg (show ¬(isSlugChar a = true) by
        rw [hws a (List.mem_cons_self a ws)]; simp), if_pos rfl]
    exact ih (fun c hc => hws c (List.mem_cons_of_mem a hc))

lemma subRuns_true_append {ws : Str} (hws : ∀ c ∈ ws, isSlugChar c = false)
    (t : Str) : subRuns true (ws ++ t) = subRuns true t := by
  induction ws with
  | nil => rfl
  | cons a ws ih =>
    rw [List.cons_append, subRuns,
      if_neg (show ¬(isSlugChar a = true) by
        rw [hws a (List.mem_cons_self a ws)]; simp), if_pos rfl]
    exact ih (fun c hc => hws c (List.mem_cons_of_mem a hc))

lemma subRuns_false_eq_true_or (l : Str) :
    subRuns false l = subRuns true l ∨
      subRuns false l = '_' :: subRuns true l := by
  cases l with
  | nil => exact Or.inl rfl
  | cons a l =>
    by_cases ha : isSlugChar a = true
    · refine Or.inl ?_
      rw [subRuns, if_pos ha]
      rw [subRuns, if_pos ha]
    · refine Or.inr ?_
      rw [subRuns, if_neg ha, if_neg (show ¬(false = true) by simp)]
      rw [subRuns, if_neg ha, if_pos rfl]

lemma subRuns_append_ws {ws : Str} (hws : ∀ c ∈ ws, isSlugChar c = false) :
    ∀ (b : Bool) (t : Str),
      subRuns b (t ++ ws) = subRuns b t ∨
        subRuns b (t ++ ws) = subRuns b t ++ ['_'] := by
  intro b t
  induction t generalizing b with
  | nil =>
    rw [List.nil_append]
    cases ws with
    | nil => cases b <;> exact Or.inl rfl
    | cons a ws2 =>
      have hws2 : ∀ c ∈ ws2, isSlugChar c = false :=
        fun c hc => hws c (List.mem_cons_of_mem a hc)
      cases b with
      | true =>
        refine Or.inl ?_
        rw [subRuns_true_nilOut hws]
        rfl
      | false =>
        refine Or.inr ?_
        have h1 : subRuns false (a :: ws2) = '_' :: subRuns true ws2 := by
          rw [subRuns,
            if_neg (show ¬(isSlugChar a = true) by
              rw [hws a (List.mem_cons_self a ws2)]; simp),
            if_neg (show ¬(false = true) by simp)]
        rw [h1, subRuns_true_nilOut hws2]
        rfl
  | cons a t ih =>
    rw [List.cons_append]
    by_cases ha : isSlugChar a = true
    · simp only [subRuns, if_pos ha]
      rcases ih false with h | h
      · rw [h]; exact Or.inl rfl
      · rw [h]; exact Or.inr rfl
    · cases b with
      | true =>
        simp only [subRuns, if_neg ha, if_pos rfl]
        exact ih true
      | false =>
        simp only [subRuns, if_neg ha, if_neg (by simp : ¬(false = true))]
        rcases ih true with h | h
        · rw [h]; exact Or.inl rfl
        · rw [h]; exact Or.inr rfl

lemma collapseRuns_id {l : Str} (h : noDbl l = true) :
    collapseRuns false l = l ∧
      ((∀ c, l.head? = some c → c ≠ '_') → collapseRuns true l = l) := by
  induction l with
  | nil => exact ⟨rfl, fun _ => rfl⟩
  | cons a t ih =>
    rcases ih (noDbl_tail h) with ⟨ihf, iht⟩
    by_cases ha : a = '_'
    · subst ha
      constructor
      · rw [collapseRuns, if_pos rfl, if_neg (by simp)]
        rw [iht (noDbl_head_of_und h)]
      · intro hcall
        exact absurd rfl (hcall '_' rfl)
    · have hcr : collapseRuns false (a :: t) = a :: t := by
        rw [collapseRuns, if_neg ha, ihf]
      refine ⟨hcr, fun _ => ?_⟩
      rw [collapseRuns, if_neg ha, ihf]

lemma subRuns_id {l : Str} (hmem : ∀ c ∈ l, isSlugChar c = true ∨ c = '_')
    (hdbl : noDbl l = true) :
    subRuns false l = l ∧
      ((∀ c, l.head? = some c → c ≠ '_') → subRuns true l = l) := by
  induction l with
  | nil => exact ⟨rfl, fun _ => rfl⟩
  | cons a t ih =>
    have htm : ∀ c ∈ t, isSlugChar c = true ∨ c = '_' :=
      fun c hc => hmem c (List.mem_cons_of_mem a hc)
    rcases ih htm (noDbl_tail hdbl) with ⟨ihf, iht⟩
    rcases hmem a (List.mem_cons_self a t) with ha | ha
    · have hr : subRuns false (a :: t) = a :: t := by
        rw [subRuns, if_pos ha, ihf]
      refine ⟨hr, fun _ => ?_⟩
      rw [subRuns, if_pos ha, ihf]
    · subst ha
      constructor
      · rw [subRuns, if_neg (by decide), if_neg (by simp)]
        rw [iht (noDbl_head_of_und hdbl)]
      · intro hcall
        exact absurd rfl (hcall '_' rfl)

lemma stripBy_eq_self {p : Char → Bool} {l : Str}
    (hh : ∀ c, l.head? = some c → p c = false)
    (hl : ∀ c, l.getLast? = some c → p c = false) : stripBy p l = l := by
  unfold stripBy
  have hd : l.dropWhile p = l := by
    cases l with
    | nil => rfl
    | cons a l =>
      rw [List.dropWhile_cons, if_neg]
      rw [hh a rfl]
      simp
  rw [hd]
  exact rstripBy_eq_self hl

lemma mem_of_head? {l : Str} {c : Char} (h : l.head? = some c) : c ∈ l := by
  cases l with
  | nil => simp at h
  | cons a t =>
    simp only [List.head?_cons, Option.some.injEq] at h
    subst h
    exact List.mem_cons_self a t

lemma mem_of_getLast? {l : Str} {c : Char} (h : l.getLast? = some c) : c ∈ l := by
  induction l with
  | nil => simp at h
  | cons a t ih =>
    cases t with
    | nil =>
      simp only [List.getLast?_singleton, Option.some.injEq] at h
      subst h
      exact List.mem_cons_self a []
    | cons b t2 =>
      rw [List.getLast?_cons_cons] at h
      exact List.mem_cons_of_mem a (ih h)

/-! ### The slug invariant and the slugify claims -/

lemma stripUnd_head {l : Str} {c : Char}
    (h : (stripBy isUnd l).head? = some c) : c ≠ '_' := by
  unfold stripBy at h
  rcases rstripBy_head? (p := isUnd) (l.dropWhile isUnd) with he | he
  · rw [he] at h
    simp at h
  · rw [he] at h
    cases hd : l.dropWhile isUnd with
    | nil =>
      rw [hd] at h
      simp at h
    | cons d t =>
      rw [hd] at h
      simp only [List.head?_cons, Option.some.injEq] at h
      subst h
      exact isUnd_eq_false_iff.mp (dropWhile_head_not hd)

lemma stripUnd_last {l : Str} {c : Char}
    (h : (stripBy isUnd l).getLast? = some c) : c ≠ '_' := by
  unfold stripBy at h
  exact isUnd_eq_false_iff.mp (rstripBy_getLast_not h)

lemma slugged_slugify (name : Str) : Slugged (slugify name) := by
  unfold slugify
  have hdbl : noDbl (subRuns false (pyStrip (name.map lowerChar))) = true :=
    noDbl_subRuns false _
  rw [(collapseRuns_id hdbl).1]
  refine ⟨?_, ?_, ?_, ?_⟩
  · intro c hc
    exact mem_subRuns (mem_stripBy hc)
  · exact noDbl_rstripBy (noDbl_dropWhile hdbl)
  · intro c hc
    exact stripUnd_head hc
  · intro c hc
    exact stripUnd_last hc

lemma map_id_of {f : Char → Char} {l : Str} (h : ∀ c ∈ l, f c = c) :
    l.map f = l := by
  induction l with
  | nil => rfl
  | cons a l ih =>
    rw [List.map_cons, h a (List.mem_cons_self a l),
      ih (fun c hc => h c (List.mem_cons_of_mem a hc))]

lemma slugify_of_slugged {l : Str} (h : Slugged l) : slugify l = l := by
  rcases h with ⟨hmem, hdbl, hhead, hlast⟩
  unfold slugify
  have hlow : l.map lowerChar = l :=
    map_id_of (fun c hc => lowerChar_eq_self_of (hmem c hc))
  rw [hlow]
  have hstrip : pyStrip l = l :=
    stripBy_eq_self
      (fun c hc => not_space_of_slug_or_und (hmem c (mem_of_head? hc)))
      (fun c hc => not_space_of_slug_or_und (hmem c (mem_of_getLast? hc)))
  rw [pyStrip] at hstrip
  rw [pyStrip, hstrip, (subRuns_id hmem hdbl).1, (collapseRuns_id hdbl).1]
  exact stripBy_eq_self
    (fun c hc => isUnd_eq_false_iff.mpr (hhead c hc))
    (fun c hc => isUnd_eq_false_iff.mpr (hlast c hc))

lemma stripUnd_subRuns_false_eq_true (l : Str) :
    stripBy isUnd (subRuns false l) = stripBy isUnd (subRuns true l) := by
  rcases subRuns_false_eq_true_or l with h | h
  · rw [h]
  · rw [h, stripBy_cons_skip (by decide)]

lemma stripUnd_subRuns_ws_leading {ws : Str}
    (hws : ∀ c ∈ ws, isSlugChar c = false) (t : Str) :
    stripBy isUnd (subRuns false (ws ++ t)) =
      stripBy isUnd (subRuns false t) := by
  cases ws with
  | nil => rfl
  | cons a ws2 =>
    have h1 : subRuns false ((a :: ws2) ++ t) = '_' :: subRuns true (ws2 ++ t) := by
      rw [List.cons_append, subRuns,
        if_neg (show ¬(isSlugChar a = true) by
          rw [hws a (List.mem_cons_self a ws2)]; simp),
        if_neg (show ¬(false = true) by simp)]
    rw [h1, stripBy_cons_skip (by decide),
      subRuns_true_append (fun c hc => hws c (List.mem_cons_of_mem a hc)) t,
      ← stripUnd_subRuns_false_eq_true]

lemma stripUnd_subRuns_ws_trailing {ws : Str}
    (hws : ∀ c ∈ ws, isSlugChar c = false) (t : Str) :
    stripBy isUnd (subRuns false (t ++ ws)) =
      stripBy isUnd (subRuns false t) := by
  rcases subRuns_append_ws hws false t with h | h
  · rw [h]
  · rw [h, stripBy_append_singleton (by decide)]

lemma slugify_eq_slugifySpec (name : Str) : slugify name = slugifySpec name := by
  unfold slugify slugifySpec pyStrip
  obtain ⟨ws2, hdec, hws2⟩ :=
    rstripBy_decomp isPySpace ((name.map lowerChar).dropWhile isPySpace)
  have hws1 : ∀ c ∈ (name.map lowerChar).takeWhile isPySpace, isSlugChar c = false :=
    fun c hc => not_slug_of_space (List.mem_takeWhile_imp hc)
  have hws2s : ∀ c ∈ ws2, isSlugChar c = false :=
    fun c hc => not_slug_of_space (hws2 c hc)
  rw [(collapseRuns_id (noDbl_subRuns false _)).1,
    (collapseRuns_id (noDbl_subRuns false _)).1]
  have hsplit : name.map lowerChar =
      (name.map lowerChar).takeWhile isPySpace ++
        (stripBy isPySpace (name.map lowerChar) ++ ws2) := by
    conv_lhs => rw [← List.takeWhile_append_dropWhile (p := isPySpace)
      (l := name.map lowerChar)]
    unfold stripBy
    rw [← hdec]
  conv_rhs => rw [hsplit]
  rw [stripUnd_subRuns_ws_leading hws1]
  unfold stripBy at hws2s ⊢
  rw [show rstripBy isUnd ((subRuns false
      (rstripBy isPySpace ((name.map lowerChar).dropWhile isPySpace) ++ ws2)).dropWhile isUnd) =
    stripBy isUnd (subRuns false
      (rstripBy isPySpace ((name.map lowerChar).dropWhile isPySpace) ++ ws2)) from rfl]
  rw [stripUnd_subRuns_ws_trailing hws2s]
  rfl

lemma slugify_no_alnum {name : Str}
    (h : ∀ c ∈ name, isSlugChar (lowerChar c) = false) : slugify name = [] := by
  unfold slugify
  have hs : ∀ c ∈ pyStrip (name.map lowerChar), isSlugChar c = false := by
    intro c hc
    have hm : c ∈ name.map lowerChar := mem_stripBy hc
    rcases List.mem_map.mp hm with ⟨d, hd, he⟩
    rw [← he]
    exact h d hd
  cases hp : pyStrip (name.map lowerChar) with
  | nil => rfl
  | cons a t =>
    rw [hp] at hs
    have h1 : subRuns false (a :: t) = '_' :: subRuns true t := by
      rw [subRuns,
        if_neg (show ¬(isSlugChar a = true) by
          rw [hs a (List.mem_cons_self a t)]; simp),
        if_neg (show ¬(false = true) by simp)]
    rw [h1, subRuns_true_nilOut (fun c hc => hs c (List.mem_cons_of_mem a hc))]
    rfl

/-- Claim C5: `slugify` equals the reference definition (lowercase, replace
each maximal run outside `[a-z0-9]` by one underscore, collapse repeated
underscores, strip underscore ends), and a name with no alphanumeric
characters slugifies to the empty string. -/
theorem slugify_matches_reference (name : Str) :
    slugify name = slugifySpec name ∧
      ((∀ c ∈ name, isSlugChar (lowerChar c) = false) → slugify name = []) :=
  ⟨slugify_eq_slugifySpec name, fun h => slugify_no_alnum h⟩

theorem slugify_matches_reference_witness :
    (∀ c ∈ ("?!".data), isSlugChar (lowerChar c) = false) ∧
      slugify ("?!".data) = [] :=
  ⟨by decide, (slugify_matches_reference ("?!".data)).2 (by decide)⟩

/-- Claim C6: `slugify` is idempotent. -/
theorem slugify_idempotent (name : Str) :
    slugify (slugify name) = slugify name :=
  slugify_of_slugged (slugged_slugify name)

/-! ### Write/read round trip (claim C4) -/

lemma not_cr_of_no_break {c : Char} (h : isPyLineBreak c = false) :
    ¬ c = '\r' := by
  intro he
  subst he
  exact absurd h (by decide)

lemma splitlines_cons_no_break {c : Char} (h1 : ¬ c = '\r')
    (h2 : isPyLineBreak c = false) (rest : Str) :
    splitlines (c :: rest) =
      match splitlines rest with
      | [] => [[c]]
      | l :: ls => (c :: l) :: ls := by
  rw [splitlines.eq_def]
  simp [h1, h2]

lemma splitlines_append_line {a : Str} (ha : ∀ c ∈ a, isPyLineBreak c = false)
    (rest : Str) : splitlines (a ++ '\n' :: rest) = a :: splitlines rest := by
  induction a with
  | nil => rfl
  | cons c a2 ih =>
    have hc := ha c (List.mem_cons_self c a2)
    rw [List.cons_append,
      splitlines_cons_no_break (not_cr_of_no_break hc) hc,
      ih (fun d hd => ha d (List.mem_cons_of_mem c hd))]

lemma joinNL_splitlines {s : Str}
    (hb : ∀ c ∈ s, isPyLineBreak c = true → c = '\n') :
    splitlines (s ++ ['\n']) ≠ [] ∧
      joinNL (splitlines (s ++ ['\n'])) = s := by
  induction s with
  | nil => exact ⟨by decide, rfl⟩
  | cons c s ih =>
    have hbs : ∀ d ∈ s, isPyLineBreak d = true → d = '\n' :=
      fun d hd => hb d (List.mem_cons_of_mem c hd)
    rcases ih hbs with ⟨hne, hj⟩
    by_cases hc : c = '\n'
    · subst hc
      have he : splitlines (('\n' :: s) ++ ['\n']) =
          [] :: splitlines (s ++ ['\n']) := rfl
      rw [he]
      refine ⟨by simp, ?_⟩
      cases hk : splitlines (s ++ ['\n']) with
      | nil => exact absurd hk hne
      | cons L Ls =>
        have h2 : joinNL ([] :: L :: Ls) = '\n' :: joinNL (L :: Ls) := rfl
        rw [h2, ← hk, hj]
    · have hcb : isPyLineBreak c = false := by
        cases hq : isPyLineBreak c
        · rfl
        · exact absurd (hb c (List.mem_cons_self c s) hq) hc
      rw [List.cons_append, splitlines_cons_no_break (not_cr_of_no_break hcb) hcb]
      cases hk : splitlines (s ++ ['\n']) with
      | nil => exact absurd hk hne
      | cons L Ls =>
        refine ⟨by simp, ?_⟩
        have hcons : joinNL ((c :: L) :: Ls) = c :: joinNL (L :: Ls) := by
          cases Ls with
          | nil => rfl
          | cons M Ms => rfl
        show joinNL ((c :: L) :: Ls) = c :: s
        rw [hcons, ← hk, hj]

/-- Claim C4 counterexample: writing a record with parent `""` and reading
it back yields parent `"-"`, because `cmd_add` replaces a falsy parent
argument by the sentinel before serializing. -/
theorem write_read_not_exact :
    read_node (addContent ("T".data) [] []) ≠
      { type := ("T".data), parent := [], notes := [] } := by decide

/-- Claim C4 (amended): for a type and parent free of line-break
characters and invariant under whitespace stripping, a non-empty parent,
and notes whose only line-break character is the newline, `write` followed
by `read` returns the same type, parent and notes exactly. -/
theorem write_read_round_trip (type parent notes : Str)
    (ht1 : ∀ c ∈ type, isPyLineBreak c = false) (ht2 : pyStrip type = type)
    (hp1 : ∀ c ∈ parent, isPyLineBreak c = false) (hp2 : pyStrip parent = parent)
    (hpne : parent ≠ [])
    (hn : ∀ c ∈ notes, isPyLineBreak c = true → c = '\n') :
    read_node (addContent type parent notes) =
      { type := type, parent := parent, notes := notes } := by
  simp only [addContent, if_neg hpne]
  by_cases hne : notes = []
  · subst hne
    rw [if_pos rfl]
    have hc : joinNL ([type, parent] ++ []) ++ ['\n'] =
        type ++ '\n' :: (parent ++ ['\n']) := by
      rw [List.append_nil]
      show (type ++ '\n' :: parent) ++ ['\n'] = _
      rw [List.append_assoc, List.cons_append]
    rw [hc]
    have hsl : splitlines (type ++ '\n' :: (parent ++ ['\n'])) = [type, parent] := by
      rw [splitlines_append_line ht1]
      have h0 : parent ++ ['\n'] = parent ++ '\n' :: ([] : Str) := rfl
      rw [h0, splitlines_append_line hp1]
      rfl
    unfold read_node
    rw [hsl]
    simp [ht2, hp2]
  · rw [if_neg hne]
    have hc : joinNL ([type, parent] ++ [notes]) ++ ['\n'] =
        type ++ '\n' :: (parent ++ '\n' :: (notes ++ ['\n'])) := by
      show (type ++ '\n' :: (parent ++ '\n' :: notes)) ++ ['\n'] = _
      rw [List.append_assoc, List.cons_append, List.append_assoc,
        List.cons_append]
    rw [hc]
    rcases joinNL_splitlines hn with ⟨hLne, hLj⟩
    have hsl : splitlines (type ++ '\n' :: (parent ++ '\n' :: (notes ++ ['\n']))) =
        type :: parent :: splitlines (notes ++ ['\n']) := by
      rw [splitlines_append_line ht1, splitlines_append_line hp1]
    cases hk : splitlines (notes ++ ['\n']) with
    | nil => exact absurd hk hLne
    | cons L Ls =>
      rw [hk] at hsl hLj
      unfold read_node
      rw [hsl]
      simp [ht2, hp2, hLj]

theorem write_read_round_trip_witness :
    read_node (addContent ("Kingdom".data) ("edoras".data) ("line1\nline2".data)) =
      { type := ("Kingdom".data), parent := ("edoras".data),
        notes := ("line1\nline2".data) } :=
  write_read_round_trip ("Kingdom".data) ("edoras".data) ("line1\nline2".data)
    (by decide) (by decide) (by decide) (by decide) (by decide) (by decide)

/-! ### Child de-duplication (claim C3) -/

lemma orderedGo_eq_keepFirst (rest : List Str) :
    ∀ seen, orderedGo seen rest =
      keepFirst (rest.filter (fun y => decide (y ∉ seen))) := by
  induction rest with
  | nil =>
    intro seen
    simp [orderedGo, keepFirst]
  | cons k rest ih =>
    intro seen
    by_cases hk : k ∈ seen
    · rw [orderedGo, if_pos hk, List.filter_cons,
        if_neg (show ¬(decide (k ∉ seen) = true) by simp [hk])]
      exact ih seen
    · rw [orderedGo, if_neg hk, List.filter_cons,
        if_pos (show decide (k ∉ seen) = true by simp [hk])]
      rw [keepFirst, ih (k :: seen)]
      congr 1
      rw [List.filter_filter]
      congr 1
      apply List.filter_congr
      intro y _
      by_cases h1 : y = k <;> by_cases h2 : y ∈ seen <;>
        simp [h1, h2, List.mem_cons]

/-- Claim C3: at every rendered node, the list of children the renderer
recurses into is the `/name`-keyed child list followed by the bare-name
child list, de-duplicated keeping each key's first occurrence. -/
theorem display_children_dedup (children : Option Str → List Str) (name : Str) :
    displayKidsOf children name =
      keepFirst (children (some ('/' :: name)) ++ children (some name)) := by
  unfold displayKidsOf orderedOf
  rw [orderedGo_eq_keepFirst _ []]
  congr 1
  simp

/-! ### Ordering facts for the index builder (claim C2) -/

lemma lexLe_total : ∀ a b : Str, lexLe a b = true ∨ lexLe b a = true := by
  intro a
  induction a with
  | nil => intro b; exact Or.inl rfl
  | cons x as ih =>
    intro b
    cases b with
    | nil => exact Or.inr rfl
    | cons y bs =>
      by_cases h1 : x.toNat < y.toNat
      · refine Or.inl ?_
        rw [lexLe, if_pos h1]
      · by_cases h2 : y.toNat < x.toNat
        · refine Or.inr ?_
          rw [lexLe, if_pos h2]
        · rcases ih bs with h | h
          · refine Or.inl ?_
            rw [lexLe, if_neg h1, if_neg h2]
            exact h
          · refine Or.inr ?_
            rw [lexLe, if_neg h2, if_neg h1]
            exact h

lemma lexLe_trans : ∀ a b c : Str,
    lexLe a b = true → lexLe b c = true → lexLe a c = true := by
  intro a
  induction a with
  | nil => intro b c _ _; rfl
  | cons x as ih =>
    intro b c hab hbc
    cases b with
    | nil => rw [lexLe] at hab; simp at hab
    | cons y bs =>
      cases c with
      | nil => rw [lexLe] at hbc; simp at hbc
      | cons z cs =>
        rw [lexLe] at hab hbc ⊢
        split_ifs at hab hbc ⊢ <;>
          first
            | rfl
            | omega
            | simp at hab
            | simp at hbc
            | exact ih bs cs hab hbc
            | (exfalso; omega)

instance : IsTotal Str ciLe :=
  ⟨fun a b => lexLe_total (a.map lowerChar) (b.map lowerChar)⟩

instance : IsTrans Str ciLe :=
  ⟨fun _ _ _ => lexLe_trans _ _ _⟩

instance : IsTotal (Str × Str) stemLe :=
  ⟨fun a b => lexLe_total a.1 b.1⟩

instance : IsTrans (Str × Str) stemLe :=
  ⟨fun _ _ _ => lexLe_trans _ _ _⟩

lemma mem_foldl_insertChild (nodes : List (Str × Node)) :
    ∀ (ch0 : Option Str → List Str) (g : Option Str) (k : Str),
      (k ∈ (nodes.foldl (fun ch kn => insertChild ch (parentGroup kn.2) kn.1) ch0) g ↔
        k ∈ ch0 g ∨ ∃ n, (k, n) ∈ nodes ∧ parentGroup n = g) := by
  induction nodes with
  | nil =>
    intro ch0 g k
    simp
  | cons kn nodes ih =>
    intro ch0 g k
    rw [List.foldl_cons, ih]
    constructor
    · rintro (h | ⟨n, hn, hg⟩)
      · unfold insertChild at h
        by_cases hgg : g = parentGroup kn.2
        · rw [if_pos hgg] at h
          rcases List.mem_append.mp h with h | h
          · refine Or.inl ?_
            rw [hgg]
            exact h
          · have hkk : k = kn.1 := by simpa using h
            subst hkk
            exact Or.inr ⟨kn.2, List.mem_cons_self kn nodes, hgg.symm⟩
        · rw [if_neg hgg] at h
          exact Or.inl h
      · exact Or.inr ⟨n, List.mem_cons_of_mem kn hn, hg⟩
    · rintro (h | ⟨n, hn, hg⟩)
      · refine Or.inl ?_
        unfold insertChild
        by_cases hgg : g = parentGroup kn.2
        · rw [if_pos hgg]
          refine List.mem_append_left _ ?_
          rw [← hgg]
          exact h
        · rw [if_neg hgg]
          exact h
      · rcases List.mem_cons.mp hn with he | hm
        · refine Or.inl ?_
          unfold insertChild
          have hk1 : kn.1 = k := by rw [← he]
          have hk2 : kn.2 = n := by rw [← he]
          rw [if_pos (by rw [hk2, hg])]
          refine List.mem_append_right _ ?_
          rw [hk1]
          exact List.mem_singleton.mpr rfl
        · exact Or.inr ⟨n, hm, hg⟩

lemma assoc_unique {l : List (Str × Node)} (h : (l.map Prod.fst).Nodup)
    {k : Str} {a b : Node} (ha : (k, a) ∈ l) (hb : (k, b) ∈ l) : a = b := by
  induction l with
  | nil => simp at ha
  | cons x l ih =>
    rw [List.map_cons, List.nodup_cons] at h
    rcases List.mem_cons.mp ha with ha1 | ha1 <;>
      rcases List.mem_cons.mp hb with hb1 | hb1
    · exact congrArg Prod.snd (ha1.trans hb1.symm)
    · exfalso
      apply h.1
      rw [← ha1]
      exact List.mem_map.mpr ⟨(k, b), hb1, rfl⟩
    · exfalso
      apply h.1
      rw [← hb1]
      exact List.mem_map.mpr ⟨(k, a), ha1, rfl⟩
    · exact ih h.2 ha1 hb1

lemma parentGroup_eq_none {n : Node} :
    parentGroup n = none ↔ (n.parent = [] ∨ n.parent = ['-']) := by
  unfold parentGroup
  by_cases h : n.parent ≠ [] ∧ n.parent ≠ ['-']
  · rw [if_pos h]
    constructor
    · intro hc
      exact absurd hc (by simp)
    · intro hc
      rcases hc with hc | hc
      · exact absurd hc h.1
      · exact absurd hc h.2
  · rw [if_neg h]
    constructor
    · intro _
      by_cases h1 : n.parent = []
      · exact Or.inl h1
      · refine Or.inr ?_
        by_contra h2
        exact h ⟨h1, h2⟩
    · intro _
      rfl

lemma nodes_map_fst (dir : List (Str × Str)) :
    ((build_index dir).1.map Prod.fst).Nodup ↔ (dir.map Prod.fst).Nodup := by
  show (((iter_nodes dir).map (fun e => (e.1, read_node e.2))).map Prod.fst).Nodup ↔ _
  rw [List.map_map]
  have h1 : (Prod.fst ∘ fun e : Str × Str => (e.1, read_node e.2)) = Prod.fst := rfl
  rw [h1]
  exact List.Perm.nodup_iff (List.Perm.map Prod.fst (List.perm_insertionSort stemLe dir))

/-- Claim C2: the index builder puts every node key in exactly one child
group — the group of its parent string when that is non-empty and not
`"-"`, the `None` group otherwise; the `None` group holds exactly the
nodes whose parent is `""` or `"-"`; and every child list is sorted
case-insensitively. -/
theorem build_index_partition (dir : List (Str × Str))
    (hnd : (dir.map Prod.fst).Nodup) :
    (∀ kn ∈ (build_index dir).1, kn.1 ∈ (build_index dir).2 (parentGroup kn.2)) ∧
    (∀ kn ∈ (build_index dir).1, ∀ g, g ≠ parentGroup kn.2 →
        kn.1 ∉ (build_index dir).2 g) ∧
    (∀ k, k ∈ (build_index dir).2 none ↔
        ∃ n, (k, n) ∈ (build_index dir).1 ∧
          (n.parent = [] ∨ n.parent = ['-'])) ∧
    (∀ g, List.Pairwise ciLe ((build_index dir).2 g)) := by
  have hmem : ∀ (g : Option Str) (k : Str),
      (k ∈ (build_index dir).2 g ↔
        ∃ n, (k, n) ∈ (build_index dir).1 ∧ parentGroup n = g) := by
    intro g k
    show k ∈ List.insertionSort ciLe _ ↔ _
    rw [List.mem_insertionSort, mem_foldl_insertChild]
    constructor
    · rintro (h | h)
      · exact absurd h (by simp)
      · exact h
    · intro h
      exact Or.inr h
  have hndn : ((build_index dir).1.map Prod.fst).Nodup :=
    (nodes_map_fst dir).mpr hnd
  refine ⟨?_, ?_, ?_, ?_⟩
  · intro kn hkn
    exact (hmem _ _).mpr ⟨kn.2, hkn, rfl⟩
  · intro kn hkn g hg hin
    rcases (hmem g kn.1).mp hin with ⟨n, hn, hpg⟩
    have he : n = kn.2 := assoc_unique hndn hn hkn
    rw [he] at hpg
    exact hg hpg.symm
  · intro k
    rw [hmem none k]
    constructor
    · rintro ⟨n, hn, hg⟩
      exact ⟨n, hn, parentGroup_eq_none.mp hg⟩
    · rintro ⟨n, hn, hg⟩
      exact ⟨n, hn, parentGroup_eq_none.mpr hg⟩
  · intro g
    exact List.sorted_insertionSort ciLe _

theorem build_index_partition_witness :
    (([(("a".data), ("Node\n-\n".data)),
       (("b".data), ("Node\na\n".data))].map Prod.fst).Nodup) ∧
    (∀ kn ∈ (build_index [(("a".data), ("Node\n-\n".data)),
        (("b".data), ("Node\na\n".data))]).1,
      kn.1 ∈ (build_index [(("a".data), ("Node\n-\n".data)),
        (("b".data), ("Node\na\n".data))]).2 (parentGroup kn.2)) :=
  ⟨by decide,
    (build_index_partition [(("a".data), ("Node\n-\n".data)),
      (("b".data), ("Node\na\n".data))] (by decide)).1⟩

/-! ### The depth-2 indentation defect (claim C1) -/

/-- Claim C1: evaluation at the failing input.  With records a (root),
b (child of a) and c (child of b), the renderer passes `prefix + branch`
to the recursive call, so the depth-2 line reads `└─ └─ c [Node]` and not
the classic `   └─ c [Node]` the indentation rule demands: the branch
glyph is repeated in place of the blank three-space continuation. -/
theorem display_depth2_prefix_divergence :
    displayF (build_index [(("a".data), ("Node\n-\n".data)),
        (("b".data), ("Node\na\n".data)),
        (("c".data), ("Node\nb\n".data))]).1
      (build_index [(("a".data), ("Node\n-\n".data)),
        (("b".data), ("Node\na\n".data)),
        (("c".data), ("Node\nb\n".data))]).2
      4 ("a".data) [] =
      some [("a [Node]".data), ("└─ b [Node]".data), ("└─ └─ c [Node]".data)] ∧
    ("└─ └─ c [Node]".data) ≠ ("   └─ c [Node]".data) :=
  ⟨by decide, by decide⟩

/-! ### Refusal and not-found paths (claims C7 and C9) -/

lemma lookupA_some_mem {α : Type} {l : List (Str × α)} {k : Str} {v : α}
    (h : lookupA l k = some v) : (k, v) ∈ l := by
  induction l with
  | nil => simp [lookupA] at h
  | cons x l ih =>
    obtain ⟨k2, v2⟩ := x
    rw [lookupA] at h
    by_cases hx : k2 = k
    · rw [if_pos hx] at h
      injection h with hv
      rw [← hv, ← hx]
      exact List.mem_cons_self (k2, v2) l
    · rw [if_neg hx] at h
      exact List.mem_cons_of_mem (k2, v2) (ih h)

/-- Claim C7: `add` for a name whose derived key already has a record,
without force, exits 1, prints the refusal line, and leaves the directory
— in particular the existing record's content — unchanged. -/
theorem cmd_add_refuses (dir : List (Str × Str))
    (dataDir name type parentArg notes : Str) (c : Str)
    (h : lookupA dir (slugify name) = some c) :
    cmd_add dir dataDir name type parentArg notes false =
      (dir, 1, [("Refusing to overwrite existing node: ".data) ++
        node_path dataDir name]) ∧
    lookupA (cmd_add dir dataDir name type parentArg notes false).1
      (slugify name) = some c := by
  have hcond : ((lookupA dir (slugify name)).isSome = true) ∧
      ¬((false : Bool) = true) := by
    constructor
    · rw [h]
      rfl
    · simp
  have h1 : cmd_add dir dataDir name type parentArg notes false =
      (dir, 1, [("Refusing to overwrite existing node: ".data) ++
        node_path dataDir name]) := by
    unfold cmd_add
    rw [if_pos hcond]
  refine ⟨h1, ?_⟩
  rw [h1]
  exact h

theorem cmd_add_refuses_witness :
    lookupA [(("edoras".data), ("Kingdom\n-\n".data))] (slugify ("Edoras".data)) =
      some ("Kingdom\n-\n".data) ∧
    cmd_add [(("edoras".data), ("Kingdom\n-\n".data))] ("d".data)
        ("Edoras".data) ("Node".data) [] [] false =
      ([(("edoras".data), ("Kingdom\n-\n".data))], 1,
        [("Refusing to overwrite existing node: ".data) ++
          node_path ("d".data) ("Edoras".data)]) :=
  ⟨by decide,
    (cmd_add_refuses [(("edoras".data), ("Kingdom\n-\n".data))] ("d".data)
      ("Edoras".data) ("Node".data) [] [] ("Kingdom\n-\n".data) (by decide)).1⟩

/-- Claim C9: `show` for a name whose derived key has no backing record
exits 1 and prints exactly the single line `Node not found: <path>`,
where `<path>` is the record path derived from the name; no node fields
are printed. -/
theorem cmd_show_missing (dir : List (Str × Str)) (dataDir name : Str)
    (h : lookupA dir (slugify name) = none) :
    cmd_show dir dataDir name =
      (1, [("Node not found: ".data) ++ node_path dataDir name]) := by
  unfold cmd_show
  rw [h]

theorem cmd_show_missing_witness :
    lookupA ([] : List (Str × Str)) (slugify ("Edoras".data)) = none ∧
    cmd_show [] ("d".data) ("Edoras".data) =
      (1, [("Node not found: ".data) ++ node_path ("d".data) ("Edoras".data)]) :=
  ⟨by decide, cmd_show_missing [] ("d".data) ("Edoras".data) (by decide)⟩

/-! ### Verbatim root matching in tree (claim C10) -/

/-- Claim C10: the `-r` argument of tree is compared verbatim to the
stored stems, without slugification: in a store whose stems are all
slug-fixed, a name that slugification changes is reported
`Root not found` with exit 1, while `show` on the same name succeeds. -/
theorem tree_root_verbatim (dir : List (Str × Str)) (dataDir name : Str)
    (fuel : Nat)
    (hkeys : ∀ kc ∈ dir, slugify kc.1 = kc.1)
    (hrec : (lookupA dir (slugify name)).isSome = true)
    (hne : slugify name ≠ name) :
    cmd_tree_root dir name fuel =
      some (1, [("Root not found: ".data) ++ name]) ∧
    (cmd_show dir dataDir name).1 = 0 := by
  constructor
  · have hno : lookupA (build_index dir).1 name = none := by
      cases hl : lookupA (build_index dir).1 name with
      | none => rfl
      | some n =>
        exfalso
        have hmm : (name, n) ∈ (build_index dir).1 := lookupA_some_mem hl
        have hmm2 : (name, n) ∈
            (iter_nodes dir).map (fun e => (e.1, read_node e.2)) := hmm
        rcases List.mem_map.mp hmm2 with ⟨e, he, hee⟩
        have he2 : e ∈ dir := (List.perm_insertionSort stemLe dir).subset he
        have hk : e.1 = name := congrArg Prod.fst hee
        have := hkeys e he2
        rw [hk] at this
        exact hne this
    simp only [cmd_tree_root]
    rw [hno]
  · unfold cmd_show
    cases hl : lookupA dir (slugify name) with
    | none =>
      rw [hl] at hrec
      simp at hrec
    | some content => rfl

theorem tree_root_verbatim_witness :
    (∀ kc ∈ [(("edoras".data), ("Kingdom\n-\n".data))], slugify kc.1 = kc.1) ∧
    (lookupA [(("edoras".data), ("Kingdom\n-\n".data))]
      (slugify ("Edoras".data))).isSome = true ∧
    slugify ("Edoras".data) ≠ ("Edoras".data) ∧
    cmd_tree_root [(("edoras".data), ("Kingdom\n-\n".data))] ("Edoras".data) 3 =
      some (1, [("Root not found: ".data) ++ ("Edoras".data)]) :=
  ⟨by decide, by decide, by decide,
    (tree_root_verbatim [(("edoras".data), ("Kingdom\n-\n".data))] ("d".data)
      ("Edoras".data) 3 (by decide) (by decide) (by decide)).1⟩

/-! ### Cycles and termination of the renderer (claim C8) -/

lemma seqOpt_isSome_iff (L : List (Option (List Str))) :
    (seqOpt L).isSome = true ↔ ∀ o ∈ L, o.isSome = true := by
  induction L with
  | nil => simp [seqOpt]
  | cons o L ih =>
    cases o with
    | none => simp [seqOpt]
    | some l =>
      rw [seqOpt]
      simp [ih]

lemma displayF_self_loop (nodes : List (Str × Node))
    (children : Option Str → List Str) (name : Str)
    (h : displayKidsOf children name = [name]) :
    ∀ fuel pre, displayF nodes children fuel name pre = none := by
  intro fuel
  induction fuel with
  | zero => intro pre; rfl
  | succ n ih =>
    intro pre
    simp only [displayF, h]
    have he : ([name] : List Str).enum = [(0, name)] := rfl
    rw [he]
    simp only [List.map_cons, List.map_nil]
    rw [ih]
    rfl

lemma displayF_mono (nodes : List (Str × Node))
    (children : Option Str → List Str) :
    ∀ fuel fuel2 name pre, fuel ≤ fuel2 →
      (displayF nodes children fuel name pre).isSome = true →
      displayF nodes children fuel2 name pre =
        displayF nodes children fuel name pre := by
  intro fuel
  induction fuel with
  | zero =>
    intro fuel2 name pre _ hs
    rw [displayF] at hs
    simp at hs
  | succ n ih =>
    intro fuel2 name pre hle hs
    cases fuel2 with
    | zero => omega
    | succ m =>
      have hnm : n ≤ m := by omega
      rw [displayF] at hs
      rw [displayF, displayF]
      have hel : ∀ o ∈ ((displayKidsOf children name).enum.map (fun ic =>
          displayF nodes children n ic.2
            (pre ++ (if ic.1 = (displayKidsOf children name).length - 1
              then ("└─ ".data) else ("├─ ".data))))), o.isSome = true := by
        rw [← seqOpt_isSome_iff]
        simpa using hs
      have hmap : (displayKidsOf children name).enum.map (fun ic =>
          displayF nodes children m ic.2
            (pre ++ (if ic.1 = (displayKidsOf children name).length - 1
              then ("└─ ".data) else ("├─ ".data)))) =
        (displayKidsOf children name).enum.map (fun ic =>
          displayF nodes children n ic.2
            (pre ++ (if ic.1 = (displayKidsOf children name).length - 1
              then ("└─ ".data) else ("├─ ".data)))) := by
        apply List.map_congr_left
        intro ic hic
        exact ih m ic.2 _ hnm (hel _ (List.mem_map_of_mem _ hic))
      rw [hmap]

lemma uniform_fuel (nodes : List (Str × Node))
    (children : Option Str → List Str) (l : List (Nat × Str))
    (g : Nat × Str → Str)
    (h : ∀ ic ∈ l, ∀ pre2, ∃ fuel,
      (displayF nodes children fuel ic.2 pre2).isSome = true) :
    ∃ F, ∀ ic ∈ l, (displayF nodes children F ic.2 (g ic)).isSome = true := by
  induction l with
  | nil => exact ⟨0, by simp⟩
  | cons ic l ih =>
    obtain ⟨F1, hF1⟩ := h ic (List.mem_cons_self ic l) (g ic)
    obtain ⟨F2, hF2⟩ := ih (fun jc hjc => h jc (List.mem_cons_of_mem ic hjc))
    refine ⟨max F1 F2, ?_⟩
    intro jc hjc
    rcases List.mem_cons.mp hjc with he | hm
    · subst he
      rw [displayF_mono nodes children F1 (max F1 F2) jc.2 (g jc)
        (le_max_left F1 F2) hF1]
      exact hF1
    · rw [displayF_mono nodes children F2 (max F1 F2) jc.2 (g jc)
        (le_max_right F1 F2) (hF2 jc hm)]
      exact hF2 jc hm

lemma exists_fuel_of_acc (nodes : List (Str × Node))
    (children : Option Str → List Str) :
    ∀ name, Acc (fun c p => c ∈ displayKidsOf children p) name →
      ∀ pre, ∃ fuel, (displayF nodes children fuel name pre).isSome = true := by
  intro name hacc
  induction hacc with
  | intro name hstep ih =>
    intro pre
    obtain ⟨F, hF⟩ := uniform_fuel nodes children
      ((displayKidsOf children name).enum)
      (fun ic => pre ++ (if ic.1 = (displayKidsOf children name).length - 1
        then ("└─ ".data) else ("├─ ".data)))
      (fun ic hic pre2 => ih ic.2 (List.snd_mem_of_mem_enum hic) pre2)
    refine ⟨F + 1, ?_⟩
    rw [displayF]
    have hmapSome : ∀ (f : List Str → List Str) (x : Option (List Str)),
        (Option.map f x).isSome = x.isSome := by
      intro f x
      cases x <;> rfl
    rw [hmapSome, seqOpt_isSome_iff]
    intro o ho
    rcases List.mem_map.mp ho with ⟨ic, hic, he⟩
    rw [← he]
    exact hF ic hic

/-- Claim C8: the renderer performs no cycle detection — for the store
holding the single record `c` whose parent is `c` itself, rendering from
`c` exhausts every fuel budget, i.e. the recursion never terminates;
conversely, when the child-step relation of the children mapping is
accessible from the start node (the parent-child graph is acyclic below
it), some finite fuel renders the tree completely. -/
theorem display_cycle_and_termination :
    (∀ fuel pre,
      displayF (build_index [(("c".data), ("Node\nc\n".data))]).1
        (build_index [(("c".data), ("Node\nc\n".data))]).2
        fuel ("c".data) pre = none) ∧
    (∀ (nodes : List (Str × Node)) (children : Option Str → List Str)
        (name pre : Str),
      Acc (fun c p => c ∈ displayKidsOf children p) name →
      ∃ fuel, (displayF nodes children fuel name pre).isSome = true) := by
  constructor
  · intro fuel pre
    exact displayF_self_loop _ _ ("c".data) (by decide) fuel pre
  · intro nodes children name pre hacc
    exact exists_fuel_of_acc nodes children name hacc pre

theorem display_cycle_and_termination_witness :
    Acc (fun c p => c ∈ displayKidsOf (fun _ => ([] : List Str)) p) ("x".data) ∧
    ∃ fuel, (displayF [] (fun _ => ([] : List Str)) fuel
      ("x".data) []).isSome = true := by
  have hacc : Acc (fun c p => c ∈ displayKidsOf
      (fun _ => ([] : List Str)) p) ("x".data) :=
    Acc.intro _ (fun y hy =>
      absurd hy (by simp [displayKidsOf, orderedOf, orderedGo]))
  exact ⟨hacc,
    display_cycle_and_termination.2 [] (fun _ => []) ("x".data) [] hacc⟩

end WorldBuilder
